import Mathlib

/-!
Shallow embedding of the tensor-manipulation core of the MyOpenNMT repository
(`src/onmt/Models.py`, `src/my/preprocessing_embedding_pytorch.py`) and proofs
about it.  A padded batch tensor `[seq_len, batch, *]` is modelled per batch
column: one column is a `List` of its `seq_len` position slices.
-/

namespace MyOpenNMT

/-! ## `LuaBiRNNEncoder.forward.reverse` -/

/-- The index list built in `reverse`:
`[j for j in range(l-1, -1, -1)] + [k for k in range(l, seq_data.size(0))]`. -/
def idxReversed (l n : Nat) : List Nat :=
  (List.range l).reverse ++ List.range' l (n - l)

/-- `seq_data[:, i, :].index_select(0, idx_reversed)` for one batch column. -/
def reverseCol [Inhabited α] (col : List α) (l : Nat) : List α :=
  (idxReversed l col.length).map (fun j => col.getD j default)

/-- `reverse(seq_data_input, lengths)`: iterate over batch columns paired with
their true lengths and reverse each column's true-length prefix. -/
def reverseBatch [Inhabited α] (cols : List (List α)) (lengths : List Nat) :
    List (List α) :=
  (cols.zip lengths).map (fun cl => reverseCol cl.1 cl.2)

theorem idxReversed_length (l n : Nat) (h : l ≤ n) : (idxReversed l n).length = n := by
  simp [idxReversed]
  omega

theorem idxReversed_getElem?_lt (l n j : Nat) (hj : j < l) :
    (idxReversed l n)[j]? = some (l - 1 - j) := by
  have h1 : j < ((List.range l).reverse).length := by simpa using hj
  unfold idxReversed
  rw [List.getElem?_append, if_pos h1, List.getElem?_eq_getElem h1,
    List.getElem_reverse, List.getElem_range]
  simp

theorem idxReversed_getElem?_ge (l n j : Nat) (hj : l ≤ j) (hjn : j < n) :
    (idxReversed l n)[j]? = some j := by
  have h1 : ¬ j < ((List.range l).reverse).length := by
    simp only [List.length_reverse, List.length_range]
    omega
  unfold idxReversed
  rw [List.getElem?_append, if_neg h1]
  have h2 : j - ((List.range l).reverse).length < (List.range' l (n - l)).length := by
    simp only [List.length_reverse, List.length_range, List.length_range']
    omega
  rw [List.getElem?_eq_getElem h2, List.getElem_range']
  simp only [List.length_reverse, List.length_range, Option.some.injEq]
  omega

theorem reverseCol_getD [Inhabited α] (col : List α) (l : Nat)
    (hl : l ≤ col.length) (j : Nat) (hj : j < col.length) :
    (reverseCol col l).getD j default =
      if j < l then col.getD (l - 1 - j) default else col.getD j default := by
  rw [reverseCol, List.getD_eq_getElem?_getD, List.getElem?_map]
  by_cases hcase : j < l
  · rw [idxReversed_getElem?_lt l col.length j hcase]
    simp [hcase]
  · rw [idxReversed_getElem?_ge l col.length j (Nat.le_of_not_lt hcase) hj]
    simp [hcase]

/-- C1: the encoder's reversal routine reverses exactly the true-length prefix
of each batch column and leaves the padded suffix unchanged. -/
theorem reverse_true_prefix_spec [Inhabited α] (cols : List (List α))
    (lengths : List Nat) (hlen : lengths.length = cols.length)
    (i : Nat) (hi : i < cols.length)
    (hl1 : 1 ≤ lengths.getD i 0) (hl2 : lengths.getD i 0 ≤ (cols.getD i []).length) :
    ∀ j < (cols.getD i []).length,
      ((reverseBatch cols lengths).getD i []).getD j default =
        if j < lengths.getD i 0 then
          (cols.getD i []).getD (lengths.getD i 0 - 1 - j) default
        else (cols.getD i []).getD j default := by
  intro j hj
  have hzip : (cols.zip lengths).length = cols.length := by
    simp [List.length_zip, hlen]
  have hi' : i < (cols.zip lengths).length := by rw [hzip]; exact hi
  have hmap : i < ((cols.zip lengths).map (fun cl => reverseCol cl.1 cl.2)).length := by
    simpa using hi'
  have hbatch : (reverseBatch cols lengths).getD i [] =
      reverseCol (cols.getD i []) (lengths.getD i 0) := by
    rw [reverseBatch, List.getD_eq_getElem _ _ hmap, List.getElem_map,
      List.getElem_zip]
    congr 1
    · exact (List.getD_eq_getElem cols [] hi).symm
    · exact (List.getD_eq_getElem lengths 0 (by omega)).symm
  rw [hbatch]
  exact reverseCol_getD _ _ hl2 j hj

/-- Witness for `reverse_true_prefix_spec`: column `[10, 20, 30, 40]` with true
length 3 reverses to `[30, 20, 10, 40]`. -/
theorem reverse_true_prefix_spec_witness :
    ((reverseBatch [[10, 20, 30, 40]] [3] : List (List Int)).getD 0 []).getD 0 default
        = 30 ∧
    ((reverseBatch [[10, 20, 30, 40]] [3] : List (List Int)).getD 0 []).getD 3 default
        = 40 := by
  have h0 := reverse_true_prefix_spec (α := Int) [[10, 20, 30, 40]] [3]
    (by decide) 0 (by decide) (by decide) (by decide) 0 (by decide)
  have h3 := reverse_true_prefix_spec (α := Int) [[10, 20, 30, 40]] [3]
    (by decide) 0 (by decide) (by decide) (by decide) 3 (by decide)
  constructor
  · rw [h0]; decide
  · rw [h3]; decide

/-! ## `get_ans_posi` (`LuaBiRNNEncoder.forward` / `PyBiRNNEncoder2.forward`) -/

/-- Per-column indices where the answer-indicator feature equals 3:
`(is_ans == 3)[:, i].nonzero()` for one batch column. -/
def nonzeroIdx (col : List Int) : List Nat :=
  (List.range col.length).filter (fun j => col.getD j 0 == 3)

/-- `get_ans_posi` for one batch column:
`torch.cat((nonzero()[0], nonzero()[-1] + 1))`.  `none` models the index
error that `nonzero()[0]` raises when no position carries the indicator. -/
def get_ans_posi (col : List Int) : Option (Nat × Nat) :=
  match (nonzeroIdx col).head?, (nonzeroIdx col).getLast? with
  | some f, some g => some (f, g + 1)
  | _, _ => none

theorem filter_range_interval (n s e : Nat) (p : Nat → Bool) (hse : s ≤ e)
    (hen : e ≤ n) (hp : ∀ j < n, p j = (decide (s ≤ j) && decide (j < e))) :
    (List.range n).filter p = List.range' s (e - s) := by
  have hsplit : List.range n =
      (List.range' 0 s ++ List.range' s (e - s)) ++ List.range' e (n - e) := by
    have h1 : List.range' 0 s ++ List.range' (0 + s) (e - s) =
        List.range' 0 ((e - s) + s) := List.range'_append_1 0 s (e - s)
    have h2 : List.range' 0 e ++ List.range' (0 + e) (n - e) =
        List.range' 0 ((n - e) + e) := List.range'_append_1 0 e (n - e)
    rw [List.range_eq_range']
    have hes : (e - s) + s = e := by omega
    have hne : (n - e) + e = n := by omega
    rw [hes] at h1
    rw [hne] at h2
    simp only [Nat.zero_add] at h1 h2
    rw [← h2, ← h1]
  rw [hsplit, List.filter_append, List.filter_append]
  have hleft : (List.range' 0 s).filter p = [] := by
    rw [List.filter_eq_nil_iff]
    intro a ha
    obtain ⟨i, hi, rfl⟩ := List.mem_range'.1 ha
    rw [hp _ (by omega)]
    simp only [Bool.and_eq_true, decide_eq_true_eq]
    omega
  have hmid : (List.range' s (e - s)).filter p = List.range' s (e - s) := by
    rw [List.filter_eq_self]
    intro a ha
    obtain ⟨i, hi, rfl⟩ := List.mem_range'.1 ha
    rw [hp _ (by omega)]
    simp only [Bool.and_eq_true, decide_eq_true_eq]
    omega
  have hright : (List.range' e (n - e)).filter p = [] := by
    rw [List.filter_eq_nil_iff]
    intro a ha
    obtain ⟨i, hi, rfl⟩ := List.mem_range'.1 ha
    rw [hp _ (by omega)]
    simp only [Bool.and_eq_true, decide_eq_true_eq]
    omega
  rw [hleft, hmid, hright, List.nil_append, List.append_nil]

/-- C3: on a column with exactly one contiguous non-empty marked run
`[s, e)`, `get_ans_posi` returns the pair `(s, e)`: the first marked
position and one past the last marked position. -/
theorem get_ans_posi_run_spec (col : List Int) (s e : Nat) (hse : s < e)
    (hen : e ≤ col.length)
    (hrun : ∀ j < col.length, (col.getD j 0 = 3 ↔ s ≤ j ∧ j < e)) :
    get_ans_posi col = some (s, e) := by
  have hnz : nonzeroIdx col = List.range' s (e - s) := by
    rw [nonzeroIdx]
    apply filter_range_interval col.length s e _ (Nat.le_of_lt hse) hen
    intro j hj
    rw [Bool.eq_iff_iff]
    simp only [beq_iff_eq, Bool.and_eq_true, decide_eq_true_eq]
    exact hrun j hj
  have hes : e - s = (e - s - 1) + 1 := by omega
  have hhead : (nonzeroIdx col).head? = some s := by
    rw [hnz, List.head?_range']
    simp
    omega
  have hlast : (nonzeroIdx col).getLast? = some (e - 1) := by
    rw [hnz, hes, List.range'_1_concat, List.getLast?_concat]
    congr 1
    omega
  rw [get_ans_posi, hhead, hlast]
  have hee : (e - 1) + 1 = e := by omega
  simp [hee]

/-- Witness for `get_ans_posi_run_spec`: the column `[0, 3, 3, 0]` has its
marked run at `[1, 3)` and the locator returns `(1, 3)`. -/
theorem get_ans_posi_run_spec_witness : get_ans_posi [0, 3, 3, 0] = some (1, 3) :=
  get_ans_posi_run_spec [0, 3, 3, 0] 1 3 (by decide) (by decide)
    (by decide)

/-- C7 counterexample: on a column with an empty indicator run the locator
does not return any interval (the code raises an index error, modelled as
`none`), contradicting the claim that it returns the zero-length interval. -/
theorem get_ans_posi_empty_counterexample : get_ans_posi [0, 0] = none := by decide

/-- C7 amended: on every column with an empty indicator run the locator
fails (returns no interval at all). -/
theorem get_ans_posi_empty_fails (col : List Int)
    (hempty : ∀ j < col.length, col.getD j 0 ≠ 3) :
    get_ans_posi col = none := by
  have hnz : nonzeroIdx col = [] := by
    rw [nonzeroIdx, List.filter_eq_nil_iff]
    intro a ha
    have : a < col.length := by
      have := List.mem_range.1 ha
      omega
    simp only [beq_iff_eq]
    exact hempty a this
  rw [get_ans_posi, hnz]
  simp

/-- Witness for `get_ans_posi_empty_fails` at the concrete column `[1, 2]`. -/
theorem get_ans_posi_empty_fails_witness : get_ans_posi [1, 2] = none :=
  get_ans_posi_empty_fails [1, 2] (by decide)

/-! ## `torch.sort` / inverse permutation
(`MatchRNNEncoder.forward`, `PyBiRNNEncoder3.forward`) -/

/-- Value comparison used to model `torch.sort(xs, dim=0, descending=desc)`
on (value, original index) pairs. -/
def sortRel : Bool → (Nat × Nat) → (Nat × Nat) → Prop
  | true, a, b => b.1 ≤ a.1
  | false, a, b => a.1 ≤ b.1

instance instDecSortRel : (desc : Bool) → DecidableRel (sortRel desc)
  | true => fun _ _ => Nat.decLe _ _
  | false => fun _ _ => Nat.decLe _ _

instance : IsTotal (Nat × Nat) (sortRel false) :=
  ⟨fun a b => Nat.le_total a.1 b.1⟩

instance : IsTrans (Nat × Nat) (sortRel false) :=
  ⟨fun _ _ _ => Nat.le_trans⟩

/-- `torch.sort(xs, dim=0, descending=desc)`: the sorted values together with
the permutation of original indices that produced them, modelled as a stable
sort of value/index pairs. -/
def torchSort (desc : Bool) (xs : List Nat) : List Nat × List Nat :=
  let pairs := xs.zip (List.range xs.length)
  let sorted := List.insertionSort (sortRel desc) pairs
  (sorted.map (fun p => p.1), sorted.map (fun p => p.2))

/-- `x.index_select(batch_dim, idx)`. -/
def indexSelect [Inhabited α] (x : List α) (idx : List Nat) : List α :=
  idx.map (fun i => x.getD i default)

theorem zip_range_mem (xs : List Nat) (p : Nat × Nat)
    (hp : p ∈ xs.zip (List.range xs.length)) :
    p.2 < xs.length ∧ p.1 = xs.getD p.2 0 := by
  obtain ⟨a, b⟩ := p
  obtain ⟨k, hk, hkp⟩ := List.mem_iff_getElem.1 hp
  have hk' : k < xs.length := by
    simpa [List.length_zip] using hk
  rw [List.getElem_zip] at hkp
  simp only [List.getElem_range, Prod.mk.injEq] at hkp
  obtain ⟨ha, hb⟩ := hkp
  subst hb
  refine ⟨hk', ?_⟩
  rw [List.getD_eq_getElem xs 0 hk']
  exact ha.symm

theorem torchSort_snd_perm (desc : Bool) (xs : List Nat) :
    (torchSort desc xs).2.Perm (List.range xs.length) := by
  have hperm := List.perm_insertionSort (sortRel desc) (xs.zip (List.range xs.length))
  have := hperm.map (fun p : Nat × Nat => p.2)
  rw [List.map_snd_zip xs (List.range xs.length) (by simp)] at this
  exact this

theorem torchSort_fst_perm (desc : Bool) (xs : List Nat) :
    (torchSort desc xs).1.Perm xs := by
  have hperm := List.perm_insertionSort (sortRel desc) (xs.zip (List.range xs.length))
  have := hperm.map (fun p : Nat × Nat => p.1)
  rw [List.map_fst_zip xs (List.range xs.length) (by simp)] at this
  exact this

theorem torchSort_fst_sorted_asc (xs : List Nat) :
    List.Sorted (· ≤ ·) (torchSort false xs).1 := by
  have hs := List.sorted_insertionSort (sortRel false) (xs.zip (List.range xs.length))
  exact List.Pairwise.map (fun p : Nat × Nat => p.1) (fun a b h => h) hs

theorem unsort_fst_values (xs : List Nat) (hperm : xs.Perm (List.range xs.length)) :
    (torchSort false xs).1 = List.range xs.length := by
  have h1 : (torchSort false xs).1.Perm (List.range xs.length) :=
    (torchSort_fst_perm false xs).trans hperm
  exact List.eq_of_perm_of_sorted h1 (torchSort_fst_sorted_asc xs)
    (List.sorted_le_range xs.length)

theorem torchSort_snd_length (desc : Bool) (xs : List Nat) :
    (torchSort desc xs).2.length = xs.length := by
  simp [torchSort, List.length_insertionSort, List.length_zip]

theorem sort_unsort_getD (lengths : List Nat) (k : Nat) (hk : k < lengths.length) :
    (torchSort true lengths).2.getD
      ((torchSort false (torchSort true lengths).2).2.getD k 0) 0 = k := by
  set isort := (torchSort true lengths).2 with hisortdef
  have hlen : isort.length = lengths.length := torchSort_snd_length true lengths
  set sorted2 :=
    List.insertionSort (sortRel false) (isort.zip (List.range isort.length)) with hs2
  have hvals : sorted2.map (fun p => p.1) = List.range isort.length := by
    have hperm : isort.Perm (List.range isort.length) := by
      rw [hlen]
      exact torchSort_snd_perm true lengths
    have := unsort_fst_values isort hperm
    simpa [torchSort, hs2] using this
  have hlens2 : sorted2.length = isort.length := by
    simp [hs2, List.length_insertionSort, List.length_zip]
  have hk2 : k < sorted2.length := by rw [hlens2, hlen]; exact hk
  have hvk : (sorted2.get ⟨k, hk2⟩).1 = k := by
    have hmap : (sorted2.map (fun p => p.1))[k]? = some ((sorted2.get ⟨k, hk2⟩).1) := by
      rw [List.getElem?_map, List.getElem?_eq_getElem hk2]
      simp [List.get_eq_getElem]
    rw [hvals] at hmap
    have hkr : k < (List.range isort.length).length := by
      simp [hlen]
      exact hk
    rw [List.getElem?_eq_getElem hkr, List.getElem_range] at hmap
    exact (Option.some.injEq _ _ ▸ hmap).symm
  have hmem : sorted2.get ⟨k, hk2⟩ ∈ sorted2 := List.get_mem sorted2 k hk2
  have hmem2 : sorted2.get ⟨k, hk2⟩ ∈ isort.zip (List.range isort.length) :=
    (List.mem_insertionSort (sortRel false)).1 hmem
  obtain ⟨hplt, hpval⟩ := zip_range_mem isort _ hmem2
  have hiu : (torchSort false isort).2.getD k 0 = (sorted2.get ⟨k, hk2⟩).2 := by
    show (sorted2.map (fun p => p.2)).getD k 0 = _
    rw [List.getD_eq_getElem _ _ (by simpa using hk2), List.getElem_map]
    simp [List.get_eq_getElem]
  rw [hiu, ← hpval, hvk]

theorem indexSelect_getD [Inhabited α] (x : List α) (idx : List Nat) (j : Nat)
    (hj : j < idx.length) :
    (indexSelect x idx).getD j default = x.getD (idx.getD j 0) default := by
  rw [indexSelect, List.getD_eq_getElem _ _ (by simpa using hj), List.getElem_map]
  rw [List.getD_eq_getElem idx 0 hj]

/-- C2: sorting a batch by descending length via `idx_sort` and then selecting
by `idx_unsort` (the indices of the ascending sort of `idx_sort`) restores the
exact original batch order on any tensor along the batch axis. -/
theorem sort_unsort_identity [Inhabited α] (lengths : List Nat) (x : List α)
    (hx : x.length = lengths.length) :
    indexSelect (indexSelect x (torchSort true lengths).2)
      (torchSort false (torchSort true lengths).2).2 = x := by
  set isort := (torchSort true lengths).2 with hisortdef
  set iunsort := (torchSort false isort).2 with hiunsortdef
  have hlen : isort.length = lengths.length := torchSort_snd_length true lengths
  have hlen2 : iunsort.length = lengths.length := by
    rw [hiunsortdef, torchSort_snd_length false isort, hlen]
  have hsel1 : (indexSelect x isort).length = lengths.length := by
    simp [indexSelect, hlen]
  have hlenLHS : (indexSelect (indexSelect x isort) iunsort).length = x.length := by
    simp [indexSelect, hlen2, hx]
  apply List.ext_getElem hlenLHS
  intro k h1 h2
  have hk : k < lengths.length := by rw [← hx]; exact h2
  have hkiu : k < iunsort.length := by rw [hlen2]; exact hk
  have hub : iunsort.getD k 0 < isort.length := by
    have hperm : iunsort.Perm (List.range isort.length) := torchSort_snd_perm false isort
    have hmem : iunsort.getD k 0 ∈ iunsort := by
      rw [List.getD_eq_getElem iunsort 0 hkiu]
      exact iunsort.getElem_mem hkiu
    have := hperm.mem_iff.1 hmem
    exact List.mem_range.1 this
  have step1 : (indexSelect (indexSelect x isort) iunsort).getD k default =
      (indexSelect x isort).getD (iunsort.getD k 0) default :=
    indexSelect_getD (indexSelect x isort) iunsort k hkiu
  have step2 : (indexSelect x isort).getD (iunsort.getD k 0) default =
      x.getD (isort.getD (iunsort.getD k 0) 0) default :=
    indexSelect_getD x isort (iunsort.getD k 0) hub
  have step3 : isort.getD (iunsort.getD k 0) 0 = k := sort_unsort_getD lengths k hk
  have : (indexSelect (indexSelect x isort) iunsort).getD k default =
      x.getD k default := by
    rw [step1, step2, step3]
  rw [List.getD_eq_getElem _ _ h1, List.getD_eq_getElem _ _ h2] at this
  exact this

/-- Witness for `sort_unsort_identity`: lengths `[2, 5, 3]` and the batch
tensor `[10, 20, 30]` round-trip to themselves. -/
theorem sort_unsort_identity_witness :
    indexSelect (indexSelect ([10, 20, 30] : List Int) (torchSort true [2, 5, 3]).2)
      (torchSort false (torchSort true [2, 5, 3]).2).2 = [10, 20, 30] :=
  sort_unsort_identity [2, 5, 3] ([10, 20, 30] : List Int) rfl

/-! ## `MatchRNNEncoder.forward` match layer: mask, softmax, weighted average -/

/-- A similarity score after
`scores.data.masked_fill_((1 - Expand_BF_ans_mask).data.byte(), -float('inf'))`:
`none` is the `-inf` written at padded answer positions. -/
def maskedScores (scores : List ℚ) (pad : List Bool) : List (Option ℚ) :=
  (scores.zip pad).map (fun sp => if sp.2 then none else some sp.1)

/-- The exponential inside `F.softmax` applied to a possibly `-inf` score;
IEEE gives `exp(-inf) = 0` exactly, and the exponential proper is abstracted
as a map `e` (used under the hypothesis that it is strictly positive). -/
def expMasked (e : ℚ → ℚ) : Option ℚ → ℚ
  | none => 0
  | some x => e x

/-- `F.softmax(scores, dim=2)`: one row (one passage position) of the softmax
over answer positions. -/
def softmaxRow (e : ℚ → ℚ) (xs : List (Option ℚ)) : List ℚ :=
  (xs.map (expMasked e)).map (fun v => v / (xs.map (expMasked e)).sum)

/-- `alpha`: the attention distribution over answer positions for one passage
position, as computed by mask-then-softmax. -/
def alphaRow (e : ℚ → ℚ) (scores : List ℚ) (pad : List Bool) : List ℚ :=
  softmaxRow e (maskedScores scores pad)

/-- `alpha.bmm(BF_ans_outputs)` restricted to one passage position and one
hidden coordinate: the attention-weighted average of the answer vectors. -/
def matchedRow (e : ℚ → ℚ) (scores : List ℚ) (pad : List Bool)
    (ansVec : List ℚ) : ℚ :=
  (List.zipWith (fun a v => a * v) (alphaRow e scores pad) ansVec).sum

theorem sum_map_div (l : List ℚ) (c : ℚ) :
    (l.map (fun v => v / c)).sum = l.sum / c := by
  induction l with
  | nil => simp
  | cons a t ih => simp [ih, add_div]

theorem alphaRow_length (e : ℚ → ℚ) (scores : List ℚ) (pad : List Bool)
    (hlen : pad.length = scores.length) :
    (alphaRow e scores pad).length = pad.length := by
  simp [alphaRow, softmaxRow, maskedScores, List.length_zip, hlen]

theorem maskedScores_getElem? (scores : List ℚ) (pad : List Bool)
    (hlen : pad.length = scores.length) (j : Nat) (hj : j < pad.length) :
    (maskedScores scores pad)[j]? =
      some (if pad[j] then none else some (scores.get ⟨j, by omega⟩)) := by
  have hjz : j < (scores.zip pad).length := by
    simp only [List.length_zip]
    omega
  rw [maskedScores, List.getElem?_map, List.getElem?_eq_getElem hjz,
    List.getElem_zip]
  rfl

theorem nums_nonneg (e : ℚ → ℚ) (he : ∀ x, 0 < e x) (xs : List (Option ℚ)) :
    ∀ v ∈ xs.map (expMasked e), 0 ≤ v := by
  intro v hv
  obtain ⟨y, _, rfl⟩ := List.mem_map.1 hv
  cases y with
  | none => exact le_refl 0
  | some x => exact le_of_lt (he x)

theorem alphaRow_masked_zero (e : ℚ → ℚ) (scores : List ℚ) (pad : List Bool)
    (hlen : pad.length = scores.length) (j : Nat) (hj : j < pad.length)
    (hjt : pad[j] = true) (hb : j < (alphaRow e scores pad).length) :
    (alphaRow e scores pad)[j] = 0 := by
  have hmsj? : (maskedScores scores pad)[j]? = some none := by
    rw [maskedScores_getElem? scores pad hlen j hj]
    simp [hjt]
  have h? : (alphaRow e scores pad)[j]? = some 0 := by
    rw [alphaRow, softmaxRow, List.getElem?_map, List.getElem?_map, hmsj?]
    simp [expMasked]
  have hsome := List.getElem?_eq_getElem hb
  rw [h?] at hsome
  exact (Option.some.inj hsome).symm

/-- C4: after driving masked answer positions' scores to `-inf` and applying
softmax, every masked answer position receives exactly zero attention weight;
the weights over the row sum to one; and the matched representation depends
only on the answer vectors at unmasked positions (it is their
attention-weighted average). -/
theorem masked_softmax_spec (e : ℚ → ℚ) (he : ∀ x, 0 < e x)
    (scores : List ℚ) (pad : List Bool) (hlen : pad.length = scores.length)
    (hunmask : false ∈ pad) :
    (∀ j < pad.length, pad.getD j true = true →
        (alphaRow e scores pad).getD j 0 = 0) ∧
    (alphaRow e scores pad).sum = 1 ∧
    (∀ v v' : List ℚ, v.length = pad.length → v'.length = pad.length →
        (∀ j < pad.length, pad.getD j true = false → v.getD j 0 = v'.getD j 0) →
        matchedRow e scores pad v = matchedRow e scores pad v') := by
  have hmslen : (maskedScores scores pad).length = pad.length := by
    simp [maskedScores, List.length_zip, hlen]
  have halen : (alphaRow e scores pad).length = pad.length :=
    alphaRow_length e scores pad hlen
  have hnonneg : ∀ v ∈ (maskedScores scores pad).map (expMasked e), 0 ≤ v :=
    nums_nonneg e he (maskedScores scores pad)
  obtain ⟨j0, hj0, hpj0⟩ := List.mem_iff_getElem.1 hunmask
  have hmsj0? : (maskedScores scores pad)[j0]? =
      some (some (scores.get ⟨j0, by omega⟩)) := by
    rw [maskedScores_getElem? scores pad hlen j0 hj0]
    simp [hpj0]
  have hnumj0? : ((maskedScores scores pad).map (expMasked e))[j0]? =
      some (e (scores.get ⟨j0, by omega⟩)) := by
    rw [List.getElem?_map, hmsj0?]
    rfl
  have hSpos : 0 < ((maskedScores scores pad).map (expMasked e)).sum := by
    have hle := List.single_le_sum hnonneg _ (List.getElem?_mem hnumj0?)
    have := he (scores.get ⟨j0, by omega⟩)
    linarith
  have hSne : ((maskedScores scores pad).map (expMasked e)).sum ≠ 0 :=
    ne_of_gt hSpos
  refine ⟨?_, ?_, ?_⟩
  · intro j hj hpadj
    have hjt : pad[j] = true := by
      rw [List.getD_eq_getElem pad true hj] at hpadj
      exact hpadj
    have hb : j < (alphaRow e scores pad).length := by omega
    rw [List.getD_eq_getElem _ _ hb]
    exact alphaRow_masked_zero e scores pad hlen j hj hjt hb
  · show (((maskedScores scores pad).map (expMasked e)).map
        (fun v => v / ((maskedScores scores pad).map (expMasked e)).sum)).sum = 1
    rw [sum_map_div, div_self hSne]
  · intro v v' hv hv' hvv
    rw [matchedRow, matchedRow]
    congr 1
    apply List.ext_getElem
    · simp [List.length_zipWith, halen, hv, hv']
    · intro k h1 h2
      have hk : k < pad.length := by
        rw [List.length_zipWith, halen, hv] at h1
        omega
      rw [List.getElem_zipWith, List.getElem_zipWith]
      by_cases hpk : pad[k] = true
      · have hzero := alphaRow_masked_zero e scores pad hlen k hk hpk (by omega)
        rw [hzero, zero_mul, zero_mul]
      · have hpkf : pad[k] = false := by
          cases h : pad[k]
          · rfl
          · exact absurd h hpk
        have hgd : pad.getD k true = false := by
          rw [List.getD_eq_getElem pad true hk]
          exact hpkf
        have := hvv k hk hgd
        rw [List.getD_eq_getElem v 0 (by omega),
          List.getD_eq_getElem v' 0 (by omega)] at this
        rw [this]

/-- Witness for `masked_softmax_spec`: with the masked score row `[0, 0]`,
padding pattern `[true, false]` and the constant-one exponential, the masked
position gets weight 0 and the weights sum to 1. -/
theorem masked_softmax_spec_witness :
    (alphaRow (fun _ => 1) [0, 0] [true, false]).getD 0 0 = 0 ∧
    (alphaRow (fun _ => 1) [0, 0] [true, false]).sum = 1 := by
  have h := masked_softmax_spec (fun _ => 1) (fun _ => one_pos) [0, 0]
    [true, false] rfl (by decide)
  exact ⟨h.1 0 (by decide) (by decide), h.2.1⟩

/-! ## `MatchRNNEncoder.forward` final state zeroing -/

/-- The tail of `MatchRNNEncoder.forward`: the returned `(hidden_t, outputs)`
where `hidden_t = (cat([h1, h2], 0) * 0, cat([c1, c2], 0) * 0)` and the
per-position context is `src_outputs2` unchanged.  State tensors are
flattened to lists of entries. -/
def matchEncReturn (h1 c1 h2 c2 outputs2 : List ℚ) :
    (List ℚ × List ℚ) × List ℚ :=
  (((h1 ++ h2).map (fun x => x * 0), (c1 ++ c2).map (fun x => x * 0)), outputs2)

theorem getD_map_mul_zero (l : List ℚ) (j : Nat) :
    (l.map (fun x => x * 0)).getD j 0 = 0 := by
  rw [List.getD_eq_getElem?_getD, List.getElem?_map]
  cases h : l[j]? <;> simp

/-- C5: the match-attention encoder returns a final hidden state whose `h`
and `c` components are identically zero (the concatenated layer states are
multiplied by zero), while the per-position context output is returned
unchanged. -/
theorem match_final_state_zero (h1 c1 h2 c2 outputs2 : List ℚ) (j : Nat) :
    (matchEncReturn h1 c1 h2 c2 outputs2).1.1.getD j 0 = 0 ∧
    (matchEncReturn h1 c1 h2 c2 outputs2).1.2.getD j 0 = 0 ∧
    (matchEncReturn h1 c1 h2 c2 outputs2).2 = outputs2 :=
  ⟨getD_map_mul_zero (h1 ++ h2) j, getD_map_mul_zero (c1 ++ c2) j, rfl⟩

/-! ## `match_embeddings` (`src/my/preprocessing_embedding_pytorch.py`) -/

/-- One line of the embedding file, split on blanks: the surface word and the
remaining fields, each parsed by `float()` (`none` = a field it rejects). -/
structure EmbLine where
  word : String
  fields : List (Option ℚ)
deriving DecidableEq

/-- Running state of the matching loop: the embedding-matrix rows, the
per-index done flags, and whether the python local `vec` is currently bound
(the warning in the `except` handler reads `len(vec)`). -/
structure EmbState where
  mat : List (List ℚ)
  done : List Bool
  vecDefined : Bool
deriving DecidableEq

/-- `vocab.stoi` lookup, the dict modelled as an association list. -/
def stoiLookup (stoi : List (String × Nat)) (w : String) : Option Nat :=
  (stoi.find? (fun p => p.1 == w)).map (fun p => p.2)

/-- python `w.lower()` (ASCII case mapping, as in the tokens at hand):
lower-case every character. -/
def pyLower (s : String) : String := ⟨s.data.map Char.toLower⟩

/-- python `w.upper()` (ASCII case mapping, as in the tokens at hand):
upper-case every character. -/
def pyUpper (s : String) : String := ⟨s.data.map Char.toUpper⟩

/-- Body of the `for line in emb_file` loop of `match_embeddings`.  `none`
models the uncaught `NameError`: when the float conversion fails, the
`except` handler evaluates `len(vec)`, and `vec` is unbound unless a previous
line bound it.  A wrong-dimension line trips the `assert` instead, which the
handler logs before `continue`.  The three lookups are the exact /
`w.lower()` / `w.upper()` match policy; only the exact match may overwrite an
already-done entry. -/
def processLine (stoi : List (String × Nat)) (dim : Nat) (st : EmbState)
    (ln : EmbLine) : Option EmbState :=
  if ln.fields.any (fun f => f.isNone) then
    if st.vecDefined then some st else none
  else
    let vec := ln.fields.map (fun f => f.getD 0)
    let st1 : EmbState := { st with vecDefined := true }
    if vec.length ≠ dim then some st1
    else
      match stoiLookup stoi ln.word with
      | some i =>
          some { st1 with mat := st1.mat.set i vec, done := st1.done.set i true }
      | none =>
        match stoiLookup stoi (pyLower ln.word) with
        | some i =>
            if st1.done.getD i false then some st1
            else some { st1 with mat := st1.mat.set i vec,
                                 done := st1.done.set i true }
        | none =>
          match stoiLookup stoi (pyUpper ln.word) with
          | some i =>
              if st1.done.getD i false then some st1
              else some { st1 with mat := st1.mat.set i vec,
                                   done := st1.done.set i true }
          | none => some st1

/-- `match_embeddings(vocab, opt)` for a given initial (random) matrix:
fold the loop over the file's lines, then report
`(filtered_embeddings, count_match, count_miss)` with
`match = sum(done_flag)` and `miss = len(vocab) - match`. -/
def match_embeddings (stoi : List (String × Nat)) (dim : Nat)
    (init : List (List ℚ)) (lines : List EmbLine) :
    Option (List (List ℚ) × Nat × Nat) :=
  ((lines.foldlM (processLine stoi dim) ⟨init, List.replicate init.length false, false⟩).map
    (fun st => (st.mat, st.done.count true, init.length - st.done.count true)))

/-- C6 counterexample: with vocabulary `{"Apple": 0, "table": 1, "UNK": 2}`
and file lines `"apple 0.1 0.2"`, `"TABLE 0.3 0.4"` (`emb_dim = 2`), the word
`"apple"` matches nothing — the fallback lowercases/uppercases the *file*
word, which never produces the mixed-case vocab entry `"Apple"` — so index 0
keeps its initial vector and the counts are `match = 1`, `miss = 2`, not
`match = 2`, `miss = 1` as claimed. -/
theorem match_embeddings_case_counterexample :
    match_embeddings [("Apple", 0), ("table", 1), ("UNK", 2)] 2
      [[5, 5], [6, 6], [7, 7]]
      [⟨"apple", [some (1/10), some (1/5)]⟩,
       ⟨"TABLE", [some (3/10), some (2/5)]⟩] =
      some ([[5, 5], [3/10, 2/5], [7, 7]], 1, 2) := by
  rfl

/-- C6 amended: on the claim's input, only `"TABLE"` matches (via the
lowercase fallback onto `"table"`), indices 0 and 2 keep their initial
random vectors, and the counts are `match = 1`, `miss = 2`. -/
theorem match_embeddings_case_amended (r0 r1 r2 : List ℚ) :
    match_embeddings [("Apple", 0), ("table", 1), ("UNK", 2)] 2 [r0, r1, r2]
      [⟨"apple", [some (1/10), some (1/5)]⟩,
       ⟨"TABLE", [some (3/10), some (2/5)]⟩] =
      some ([r0, [3/10, 2/5], r2], 1, 2) := by
  rfl

/-- C8: a wrong-dimension line and a non-numeric line after a well-formed
line are skipped with the matrix and flags unchanged — but a non-numeric
line *before* any well-formed line aborts the whole pass (the `except`
handler evaluates `len(vec)` with `vec` unbound, raising `NameError`),
so the matching pass does not always continue as claimed. -/
theorem match_embeddings_malformed_lines :
    match_embeddings [("Apple", 0)] 2 [[5, 5]] [⟨"bad", [none]⟩] = none ∧
    match_embeddings [("Apple", 0)] 2 [[5, 5]]
      [⟨"Apple", [some 1, some 2]⟩, ⟨"bad", [none]⟩] = some ([[1, 2]], 1, 0) ∧
    match_embeddings [("Apple", 0)] 2 [[5, 5]]
      [⟨"Apple", [some 1, some 2, some 3]⟩] = some ([[5, 5]], 0, 1) :=
  ⟨rfl, rfl, rfl⟩

/-! ## `DecoderState.beam_update` -/

/-- `e.view(a, beam_size, br // beam_size, d)` along the batch axis: the flat
batch axis of one state tensor (one `(a, d)`-slice per batch entry, the slice
left generic as `α`) grouped into `beam_size` contiguous blocks of
`br // beam_size` sentence slots. -/
def beamView (e : List α) (beam_size nSent : Nat) : List (List α) :=
  (List.range beam_size).map (fun beam => (e.drop (beam * nSent)).take nSent)

/-- `sent_states = e.view(a, beam_size, br // beam_size, d)[:, :, idx]`:
the per-beam slice of sentence `idx`. -/
def sentStates [Inhabited α] (e : List α) (idx beam_size nSent : Nat) : List α :=
  (beamView e beam_size nSent).map (fun row => row.getD idx default)

/-- `sent_states.data.copy_(sent_states.data.index_select(1, positions))`:
each beam block keeps its other sentences and its sentence-`idx` slot
receives the slot of beam `positions[beam]`.  `index_select` reads the old
tensor in full before `copy_` writes. -/
def beamRows [Inhabited α] (e : List α) (idx : Nat) (positions : List Nat)
    (beam_size nSent : Nat) : List (List α) :=
  ((beamView e beam_size nSent).zip
      (positions.map (fun p => (sentStates e idx beam_size nSent).getD p default))).map
    (fun rs => rs.1.set idx rs.2)

/-- `DecoderState.beam_update(idx, positions, beam_size)` restricted to one
of the state tensors `e` in `self._all` (a hidden component or the input
feed), returning the whole updated tensor flattened back to the batch axis. -/
def beam_update [Inhabited α] (e : List α) (idx : Nat) (positions : List Nat)
    (beam_size : Nat) : List α :=
  (beamRows e idx positions beam_size (e.length / beam_size)).flatten

theorem flatten_getD_uniform [Inhabited α] (k : Nat) (hk : 0 < k) :
    ∀ (L : List (List α)) (b : Nat), (∀ r ∈ L, r.length = k) →
      b < L.length * k →
      L.flatten.getD b default = (L.getD (b / k) []).getD (b % k) default := by
  intro L
  induction L with
  | nil =>
    intro b _ hb
    simp at hb
  | cons r t ih =>
    intro b hrows hb
    have hr : r.length = k := hrows r (List.mem_cons_self r t)
    rw [List.flatten_cons]
    by_cases hbk : b < k
    · have hdiv : b / k = 0 := Nat.div_eq_of_lt hbk
      have hmod : b % k = b := Nat.mod_eq_of_lt hbk
      rw [hdiv, hmod]
      have hgd : (r :: t).getD 0 [] = r := rfl
      rw [hgd, List.getD_eq_getElem?_getD, List.getElem?_append,
        if_pos (by omega), ← List.getD_eq_getElem?_getD]
    · have hk2 : k ≤ b := Nat.le_of_not_lt hbk
      have hble : b - k < t.length * k := by
        have hlc : (r :: t).length * k = t.length * k + k := by
          rw [List.length_cons, Nat.succ_mul]
        omega
      rw [List.getD_eq_getElem?_getD, List.getElem?_append,
        if_neg (by omega), hr, ← List.getD_eq_getElem?_getD]
      rw [ih (b - k) (fun r2 hr2 => hrows r2 (List.mem_cons_of_mem r hr2)) hble]
      rw [Nat.div_eq_sub_div hk hk2, Nat.mod_eq_sub_mod hk2]
      rfl

theorem succ_mul_le_of_lt {beam beam_size nSent : Nat} (hb : beam < beam_size) :
    beam * nSent + nSent ≤ beam_size * nSent := by
  rw [← Nat.succ_mul]
  exact Nat.mul_le_mul_right nSent hb

theorem beamView_getD (e : List α) (beam_size nSent beam : Nat)
    (hb : beam < beam_size) :
    (beamView e beam_size nSent).getD beam [] =
      (e.drop (beam * nSent)).take nSent := by
  rw [beamView, List.getD_eq_getElem _ _ (by simpa using hb), List.getElem_map,
    List.getElem_range]

theorem beamView_entry [Inhabited α] (e : List α) (beam_size nSent beam sent : Nat)
    (hb : beam < beam_size) (hs : sent < nSent)
    (hsz : e.length = beam_size * nSent) :
    ((beamView e beam_size nSent).getD beam []).getD sent default =
      e.getD (beam * nSent + sent) default := by
  rw [beamView_getD e beam_size nSent beam hb]
  have h1 : beam * nSent + nSent ≤ beam_size * nSent := succ_mul_le_of_lt hb
  have htl : ((e.drop (beam * nSent)).take nSent).length = nSent := by
    simp only [List.length_take, List.length_drop]
    omega
  rw [List.getD_eq_getElem _ _ (by omega), List.getElem_take, List.getElem_drop]
  rw [List.getD_eq_getElem e default (by omega)]

theorem sentStates_getD [Inhabited α] (e : List α) (idx beam_size nSent p : Nat)
    (hp : p < beam_size) (hidx : idx < nSent)
    (hsz : e.length = beam_size * nSent) :
    (sentStates e idx beam_size nSent).getD p default =
      e.getD (p * nSent + idx) default := by
  have hbv : p < (beamView e beam_size nSent).length := by
    simpa [beamView] using hp
  rw [sentStates, List.getD_eq_getElem _ _ (by simpa using hbv), List.getElem_map]
  rw [show (beamView e beam_size nSent)[p] =
        (beamView e beam_size nSent).getD p [] from
      (List.getD_eq_getElem _ _ hbv).symm]
  exact beamView_entry e beam_size nSent p idx hp hidx hsz

theorem beamRows_getD [Inhabited α] (e : List α) (idx : Nat)
    (positions : List Nat) (beam_size nSent beam : Nat) (hb : beam < beam_size)
    (hpos : positions.length = beam_size) :
    (beamRows e idx positions beam_size nSent).getD beam [] =
      ((beamView e beam_size nSent).getD beam []).set idx
        ((sentStates e idx beam_size nSent).getD
          (positions.getD beam 0) default) := by
  have hvl : (beamView e beam_size nSent).length = beam_size := by
    simp [beamView]
  have hzl : beam < ((beamView e beam_size nSent).zip
      (positions.map (fun p =>
        (sentStates e idx beam_size nSent).getD p default))).length := by
    simp only [List.length_zip, List.length_map, hvl, hpos]
    omega
  have hb1 : beam < (beamView e beam_size nSent).length := by rw [hvl]; exact hb
  have hb2 : beam < positions.length := by rw [hpos]; exact hb
  rw [beamRows, List.getD_eq_getElem _ _ (by simpa using hzl), List.getElem_map,
    List.getElem_zip, List.getElem_map]
  rw [List.getD_eq_getElem (beamView e beam_size nSent) [] hb1,
    List.getD_eq_getElem positions 0 hb2]

theorem beamRows_rows_length [Inhabited α] (e : List α) (idx : Nat)
    (positions : List Nat) (beam_size nSent : Nat)
    (hsz : e.length = beam_size * nSent) :
    ∀ r ∈ beamRows e idx positions beam_size nSent, r.length = nSent := by
  intro r hr
  rw [beamRows] at hr
  obtain ⟨rs, hrs, rfl⟩ := List.mem_map.1 hr
  rw [List.length_set]
  have h1 : rs.1 ∈ beamView e beam_size nSent := (List.of_mem_zip hrs).1
  obtain ⟨beam, hbeam, hrs1⟩ := List.mem_map.1 h1
  have hbeam' : beam < beam_size := List.mem_range.1 hbeam
  have h2 : beam * nSent + nSent ≤ beam_size * nSent := succ_mul_le_of_lt hbeam'
  rw [← hrs1]
  simp only [List.length_take, List.length_drop]
  omega

theorem beamRows_length [Inhabited α] (e : List α) (idx : Nat)
    (positions : List Nat) (beam_size nSent : Nat)
    (hpos : positions.length = beam_size) :
    (beamRows e idx positions beam_size nSent).length = beam_size := by
  simp [beamRows, beamView, List.length_zip, hpos]

/-- C9: `beam_update` on a state tensor whose batch dimension is
`beam_size * nSent` replaces exactly the entries of sentence `idx` — beam
slot `(beam, idx)` receives the old value of slot `(positions[beam], idx)` —
and leaves every entry belonging to any other sentence index unchanged. -/
theorem beam_update_spec [Inhabited α] (e : List α) (idx : Nat)
    (positions : List Nat) (beam_size nSent : Nat) (hbs : 0 < beam_size)
    (hsz : e.length = beam_size * nSent) (hidx : idx < nSent)
    (hpos : positions.length = beam_size)
    (hposlt : ∀ p ∈ positions, p < beam_size)
    (b : Nat) (hb : b < e.length) :
    (beam_update e idx positions beam_size).getD b default =
      if b % nSent = idx then
        e.getD ((positions.getD (b / nSent) 0) * nSent + idx) default
      else e.getD b default := by
  have hnpos : 0 < nSent := by omega
  have hdiv : e.length / beam_size = nSent := by
    rw [hsz]
    exact Nat.mul_div_cancel_left nSent hbs
  have hbu : beam_update e idx positions beam_size =
      (beamRows e idx positions beam_size nSent).flatten := by
    rw [beam_update, hdiv]
  have hrl := beamRows_rows_length e idx positions beam_size nSent hsz
  have hLlen : (beamRows e idx positions beam_size nSent).length = beam_size :=
    beamRows_length e idx positions beam_size nSent hpos
  have hbL : b < (beamRows e idx positions beam_size nSent).length * nSent := by
    rw [hLlen, ← hsz]
    exact hb
  rw [hbu, flatten_getD_uniform nSent hnpos _ b hrl hbL]
  have hbeam : b / nSent < beam_size := by
    rw [Nat.div_lt_iff_lt_mul hnpos]
    rw [hsz] at hb
    omega
  have hsent : b % nSent < nSent := Nat.mod_lt b hnpos
  rw [beamRows_getD e idx positions beam_size nSent (b / nSent) hbeam hpos]
  have hrowlen : ((beamView e beam_size nSent).getD (b / nSent) []).length = nSent := by
    rw [beamView_getD e beam_size nSent (b / nSent) hbeam]
    have h2 : (b / nSent) * nSent + nSent ≤ beam_size * nSent :=
      succ_mul_le_of_lt hbeam
    simp only [List.length_take, List.length_drop]
    omega
  by_cases hcase : b % nSent = idx
  · rw [if_pos hcase]
    have hidx2 : idx < (((beamView e beam_size nSent).getD (b / nSent) []).set idx
        ((sentStates e idx beam_size nSent).getD (positions.getD (b / nSent) 0)
          default)).length := by
      rw [List.length_set, hrowlen]
      exact hidx
    rw [hcase, List.getD_eq_getElem _ _ hidx2, List.getElem_set_self]
    have hpmem : positions.getD (b / nSent) 0 ∈ positions := by
      rw [List.getD_eq_getElem positions 0 (by omega)]
      exact positions.getElem_mem (by omega)
    exact sentStates_getD e idx beam_size nSent (positions.getD (b / nSent) 0)
      (hposlt _ hpmem) hidx hsz
  · rw [if_neg hcase]
    have hsent2 : b % nSent < (((beamView e beam_size nSent).getD (b / nSent) []).set idx
        ((sentStates e idx beam_size nSent).getD (positions.getD (b / nSent) 0)
          default)).length := by
      rw [List.length_set, hrowlen]
      exact hsent
    rw [List.getD_eq_getElem _ _ hsent2,
      List.getElem_set_ne (fun h => hcase h.symm)]
    have hbnd : b % nSent <
        ((beamView e beam_size nSent).getD (b / nSent) []).length := by
      rw [hrowlen]; exact hsent
    rw [← List.getD_eq_getElem
      ((beamView e beam_size nSent).getD (b / nSent) []) default hbnd]
    rw [beamView_entry e beam_size nSent (b / nSent) (b % nSent) hbeam hsent hsz]
    rw [Nat.div_add_mod' b nSent]

/-- Witness for `beam_update_spec`: batch `[10, 20, 30, 40]` viewed as 2
beams of 2 sentences, updating sentence 0 with `positions = [1, 1]`: batch
entry 0 (beam 0, sentence 0) becomes the old entry of beam 1, sentence 0
(`30`), while entry 1 (sentence 1) stays `20`. -/
theorem beam_update_spec_witness :
    (beam_update ([10, 20, 30, 40] : List Int) 0 [1, 1] 2).getD 0 default = 30 ∧
    (beam_update ([10, 20, 30, 40] : List Int) 0 [1, 1] 2).getD 1 default = 20 := by
  have h0 := beam_update_spec ([10, 20, 30, 40] : List Int) 0 [1, 1] 2 2
    (by decide) (by decide) (by decide) (by decide) (by decide) 0 (by decide)
  have h1 := beam_update_spec ([10, 20, 30, 40] : List Int) 0 [1, 1] 2 2
    (by decide) (by decide) (by decide) (by decide) (by decide) 1 (by decide)
  constructor
  · rw [h0]; decide
  · rw [h1]; decide

/-! ## `InputFeedRNNDecoder._run_forward_pass`, `NMTModel.forward`,
`SelEncNMTModel.forward` -/

/-- One decoder time step: from the hidden state, the previous input feed
and the embedded target token, the new hidden state, the (dropped-out)
output vector and the standard attention weights.  The recurrent cell,
global attention and dropout are abstracted into the step function;
`copyAttn` is the copy-attention layer applied to the output, `covAdd`
the `coverage + attn` accumulation. -/
structure DecStep (σ τ ω : Type) where
  step : σ → ω → τ → σ × ω × ω
  copyAttn : ω → ω
  covAdd : ω → ω → ω

/-- The `for i, emb_t in enumerate(emb.split(1))` loop of
`InputFeedRNNDecoder._run_forward_pass`: per target step, one output is
appended to `outputs`, one attention to `attns["std"]`, and, when enabled,
one to `attns["copy"]` and one to `attns["coverage"]`.  Returns
`(outputs, std, copy, coverage)`. -/
def run_forward_pass (P : DecStep σ τ ω) (copyF covF : Bool) :
    σ → ω → Option ω → List τ → List ω × List ω × List ω × List ω
  | _, _, _, [] => ([], [], [], [])
  | s, feed, cov, t :: ts =>
    let r := P.step s feed t
    let cov2 := match cov with
      | none => r.2.2
      | some c => P.covAdd c r.2.2
    let rest := run_forward_pass P copyF covF r.1 r.2.1
      (if covF then some cov2 else cov) ts
    (r.2.1 :: rest.1, r.2.2 :: rest.2.1,
     if copyF then P.copyAttn r.2.1 :: rest.2.2.1 else rest.2.2.1,
     if covF then cov2 :: rest.2.2.2 else rest.2.2.2)

/-- `NMTModel.forward`: `tgt = tgt[:-1]` (exclude last target from inputs),
then the decoder consumes the truncated target.  The encoder is abstracted
as a map from the source to the initial decoder state; `feed0` is the
zero-initialised input feed of `RNNDecoderState`. -/
def NMTModel_forward (P : DecStep σ τ ω) (copyF covF : Bool)
    (encode : ι → σ × ω) (src : ι) (feed0 : ω) (tgt : List τ) :
    List ω × List ω × List ω × List ω :=
  run_forward_pass P copyF covF (encode src).1 feed0 none tgt.dropLast

/-- `SelEncNMTModel.forward`: the same `tgt = tgt[:-1]` slicing, the encoder
consuming the `(src, ans)` pair. -/
def SelEncNMTModel_forward (P : DecStep σ τ ω) (copyF covF : Bool)
    (encode : ι × κ → σ × ω) (src : ι) (ans : κ) (feed0 : ω) (tgt : List τ) :
    List ω × List ω × List ω × List ω :=
  run_forward_pass P copyF covF (encode (src, ans)).1 feed0 none tgt.dropLast

theorem run_forward_pass_lengths (P : DecStep σ τ ω) (copyF covF : Bool) :
    ∀ (tgt : List τ) (s : σ) (feed : ω) (cov : Option ω),
      (run_forward_pass P copyF covF s feed cov tgt).1.length = tgt.length ∧
      (run_forward_pass P copyF covF s feed cov tgt).2.1.length = tgt.length ∧
      (run_forward_pass P copyF covF s feed cov tgt).2.2.1.length =
        (if copyF then tgt.length else 0) ∧
      (run_forward_pass P copyF covF s feed cov tgt).2.2.2.length =
        (if covF then tgt.length else 0) := by
  intro tgt
  induction tgt with
  | nil =>
    intro s feed cov
    simp [run_forward_pass]
  | cons t ts ih =>
    intro s feed cov
    obtain ⟨ih1, ih2, ih3, ih4⟩ := ih (P.step s feed t).1 (P.step s feed t).2.1
      (if covF then some (match cov with
        | none => (P.step s feed t).2.2
        | some c => P.covAdd c (P.step s feed t).2.2) else cov)
    refine ⟨?_, ?_, ?_, ?_⟩
    · simpa [run_forward_pass] using congrArg Nat.succ ih1
    · simpa [run_forward_pass] using congrArg Nat.succ ih2
    · cases copyF <;> simp_all [run_forward_pass]
    · cases covF <;> simp_all [run_forward_pass]

/-- C10: both top-level model forward passes feed the decoder `tgt` with its
last position removed, so the decoder outputs and every enabled per-step
attention sequence have exactly `tgt_len - 1` time steps. -/
theorem model_forward_num_steps (P : DecStep σ τ ω) (copyF covF : Bool)
    (encode : ι → σ × ω) (encode2 : ι × κ → σ × ω) (src : ι) (ans : κ)
    (feed0 : ω) (tgt : List τ) (htgt : 1 ≤ tgt.length) :
    ((NMTModel_forward P copyF covF encode src feed0 tgt).1.length
        = tgt.length - 1 ∧
      (NMTModel_forward P copyF covF encode src feed0 tgt).2.1.length
        = tgt.length - 1 ∧
      (NMTModel_forward P copyF covF encode src feed0 tgt).2.2.1.length
        = (if copyF then tgt.length - 1 else 0) ∧
      (NMTModel_forward P copyF covF encode src feed0 tgt).2.2.2.length
        = (if covF then tgt.length - 1 else 0)) ∧
    ((SelEncNMTModel_forward P copyF covF encode2 src ans feed0 tgt).1.length
        = tgt.length - 1 ∧
      (SelEncNMTModel_forward P copyF covF encode2 src ans feed0 tgt).2.1.length
        = tgt.length - 1 ∧
      (SelEncNMTModel_forward P copyF covF encode2 src ans feed0 tgt).2.2.1.length
        = (if copyF then tgt.length - 1 else 0) ∧
      (SelEncNMTModel_forward P copyF covF encode2 src ans feed0 tgt).2.2.2.length
        = (if covF then tgt.length - 1 else 0)) := by
  have hdl : tgt.dropLast.length = tgt.length - 1 := List.length_dropLast tgt
  obtain ⟨h1, h2, h3, h4⟩ := run_forward_pass_lengths P copyF covF tgt.dropLast
    (encode src).1 feed0 none
  obtain ⟨g1, g2, g3, g4⟩ := run_forward_pass_lengths P copyF covF tgt.dropLast
    (encode2 (src, ans)).1 feed0 none
  rw [hdl] at h1 h2 h3 h4 g1 g2 g3 g4
  exact ⟨⟨h1, h2, h3, h4⟩, ⟨g1, g2, g3, g4⟩⟩

/-- Witness for `model_forward_num_steps` at a concrete instantiation:
target length 3 yields 2 decoder time steps in both models. -/
theorem model_forward_num_steps_witness :
    (NMTModel_forward ⟨fun s f t => (s, f + t, t), id, Nat.add⟩ true true
        (fun s => (s, 0)) 0 0 [1, 2, 3]).1.length = 2 ∧
    (SelEncNMTModel_forward ⟨fun s f t => (s, f + t, t), id, Nat.add⟩ true true
        (fun p => (p.1, 0)) 0 0 0 [1, 2, 3]).1.length = 2 := by
  have h := model_forward_num_steps (ι := Nat) (κ := Nat)
    ⟨fun s f t => (s, f + t, t), id, Nat.add⟩ true true
    (fun s => (s, 0)) (fun p => (p.1, 0)) 0 0 0 [1, 2, 3] (by decide)
  exact ⟨h.1.1, h.2.1⟩

end MyOpenNMT
